import Mathlib

/-!
Verification of the cutqc-mlft circuit-cutting pipeline (mlft package).

This file gives a shallow embedding of the pipeline's core routines —
the maximum-likelihood eigenvalue correction (`mlft/mlft.py`), the
tomography shot budgeting (`mlft/tomography.py`), the state-preparation
and measurement-basis dispatch (`mlft/helper_functions/prep_functions.py`),
the model-builder parameter plumbing (`mlft/build_fragments.py`), the
circuit cutter (`mlft/cutting_methods.py`) and the outcome combiner
(`mlft/helper_functions/post_process.py`) — and proves or refutes the
specified properties of those routines.

Floating-point values are modelled as exact rationals; Python integer
floor division is `Int.fdiv`; Python dictionaries are association lists
in insertion order; Python exceptions are `Except` errors.
-/

/-! ## Generic stable sorting (model of Python `sorted` / `numpy.argsort`) -/

/-- Insert an element into a list, before the first entry it compares `le` to.
This is the insertion step of a stable insertion sort. -/
def sortInsert (le : α → α → Bool) (a : α) : List α → List α
  | [] => [a]
  | b :: l => if le a b then a :: b :: l else b :: sortInsert le a l

/-- Stable insertion sort by a boolean comparison; models Python `sorted` and
`numpy.argsort` (ties do not affect any result proved below). -/
def sortBy (le : α → α → Bool) : List α → List α
  | [] => []
  | a :: l => sortInsert le a (sortBy le l)

/-! ## mlft/mlft.py: maximum-likelihood correction -/

/-- The elimination loop of `correct_probability_distribution`
(`mlft/mlft.py` lines 83-88), acting on the ascending-sorted value array.
Each iteration reads the current (already-updated) entry `v`; if `v >= 0`
the loop breaks, otherwise the entry is zeroed and `v / num_vals_remaining`
is added to every entry to its right.  When `num_vals_remaining = 0` the
slice being updated is empty, so the quotient (a NaN/inf warning in numpy,
`0` in `ℚ`) never lands anywhere; the resulting array is identical. -/
def correctLoopF : Nat → List ℚ → List ℚ
  | _, [] => []
  | 0, m => m
  | fuel + 1, v :: rest =>
    if 0 ≤ v then v :: rest
    else 0 :: correctLoopF fuel (rest.map (fun x => x + v / (rest.length : ℚ)))

/-- The elimination loop run over the whole sorted array (the `for` loop
enumerates exactly `len(sorted_probabilities)` entries, so the fuel
`m.length` is exact). -/
def correctLoop (m : List ℚ) : List ℚ := correctLoopF m.length m

/-- Instrumented companion of `correctLoopF`: returns `true` exactly when the
redistribution division `val / num_vals_remaining` is evaluated with
`num_vals_remaining = 0` (only possible in the iteration that processes the
last sorted entry). -/
def correctLoopDivFlagF : Nat → List ℚ → Bool
  | _, [] => false
  | 0, _ => false
  | fuel + 1, v :: rest =>
    if 0 ≤ v then false
    else if rest.isEmpty then true
    else correctLoopDivFlagF fuel (rest.map (fun x => x + v / (rest.length : ℚ)))

/-- Instrumented companion of `correctLoop`. -/
def correctLoopDivFlag (m : List ℚ) : Bool := correctLoopDivFlagF m.length m

/-- `np.argsort(probabilities.ravel())`: the indices `0 .. n-1` sorted by the
corresponding value of the (flattened) input array. -/
def argsortQ (l : List ℚ) : List Nat :=
  sortBy (fun i j => decide (l.getD i 0 ≤ l.getD j 0)) (List.range l.length)

/-- `correct_probability_distribution` (`mlft/mlft.py` lines 75-92), on the
flattened (ravelled) array: sort the values ascending, run the elimination
loop, then scatter the corrected values back to their original positions
(`sorted_probabilities[inverse_sort]` with `inverse_sort = argsort(prob_order)`,
i.e. position `k` receives the corrected value at `k`'s rank in the sort).
The input array is never mutated: numpy fancy indexing copies. -/
def correct_probability_distribution (l : List ℚ) : List ℚ :=
  let prob_order := argsortQ l
  let sorted_probabilities := prob_order.map (fun i => l.getD i 0)
  let corrected_sorted := correctLoop sorted_probabilities
  (List.range l.length).map (fun k => corrected_sorted.getD (prob_order.indexOf k) 0)

/-- Whether running `correct_probability_distribution` on `l` ever evaluates
the redistribution division with divisor `num_vals_remaining = 0`. -/
def correct_probability_distribution_div_by_zero (l : List ℚ) : Bool :=
  correctLoopDivFlag ((argsortQ l).map (fun i => l.getD i 0))


/-! ## Qubits, gates and Python-style errors -/

/-- A cirq qubit: either a `LineQubit` of the original circuit or a
`NamedQubit` (introduced by the cutter for the downstream side of a cut). -/
inductive Qubit where
  | line (n : Nat)
  | named (s : String)
deriving DecidableEq, Repr

/-- Python exceptions raised by the embedded code. -/
inductive PyError where
  | typeError
  | valueError (msg : String)
  | zeroDivisionError
deriving DecidableEq, Repr

/-- The cirq gates emitted by the preparation / measurement helpers.  The SIC
rotation angles are fixed constants (`ry` by the polar angle with
`cos(polar_angle/2) = 1/sqrt(3)`, and `rz` by the azimuthal angle
`2*pi*corner_index/3`), kept symbolic here. -/
inductive Gate where
  | X
  | H
  | S
  | Sinv
  | ryPolar
  | rzAzimuthal (corner : Nat)
deriving DecidableEq, Repr

/-- A gate applied to a qubit. -/
abbrev GateOp := Gate × Qubit

/-! ## mlft/helper_functions/prep_functions.py: state-preparation and
measurement-basis dispatch -/

/-- Operations yielded for one `(prep_state, qubit)` pair by `prep_state_ops`
(`prep_functions.py` lines 47-71); an unrecognized label raises
`ValueError(f"state not recognized: \x7bprep_state\x7d")`. -/
def prep_ops_for (prep_state : String) (qubit : Qubit) : Except PyError (List GateOp) :=
  if prep_state = "Z+" ∨ prep_state = "S0" then .ok []
  else if prep_state = "Z-" then .ok [(Gate.X, qubit)]
  else if prep_state = "X+" then .ok [(Gate.H, qubit)]
  else if prep_state = "X-" then .ok [(Gate.X, qubit), (Gate.H, qubit)]
  else if prep_state = "Y+" then .ok [(Gate.H, qubit), (Gate.S, qubit)]
  else if prep_state = "Y-" then .ok [(Gate.H, qubit), (Gate.Sinv, qubit)]
  else if prep_state = "S1" ∨ prep_state = "S2" ∨ prep_state = "S3" then
    let corner := if prep_state = "S1" then 0 else if prep_state = "S2" then 1 else 2
    .ok ((Gate.ryPolar, qubit) ::
      (if corner ≠ 0 then [(Gate.rzAzimuthal corner, qubit)] else []))
  else .error (.valueError ("state not recognized: " ++ prep_state))

/-- `prep_state_ops(prep_states, qubits)` (`prep_functions.py` lines 45-71):
the generator zips the two lists and yields the per-qubit preparation
operations in order; when consumed it raises at the first unrecognized
label. -/
def prep_state_ops : List String → List Qubit → Except PyError (List GateOp)
  | prep_state :: states, qubit :: qubits => do
    let ops ← prep_ops_for prep_state qubit
    let rest ← prep_state_ops states qubits
    return ops ++ rest
  | _, _ => .ok []

/-- Operations yielded for one `(basis, qubit)` pair by `meas_basis_ops`
(`prep_functions.py` lines 73-80): `"X"` and `"Y"` get basis rotations and
**any other label** — the computational basis `"Z"`, but equally any
unrecognized string — falls off the end of the `if/elif` chain and yields
nothing.  There is no `else: raise` branch. -/
def meas_ops_for (basis : String) (qubit : Qubit) : List GateOp :=
  if basis = "X" then [(Gate.H, qubit)]
  else if basis = "Y" then [(Gate.Sinv, qubit), (Gate.H, qubit)]
  else []

/-- `meas_basis_ops(meas_bases, qubits)`: total — the generator contains no
`raise` statement, so no label can produce an error. -/
def meas_basis_ops (meas_bases : List String) (qubits : List Qubit) : List GateOp :=
  ((meas_bases.zip qubits).map (fun bq => meas_ops_for bq.1 bq.2)).flatten

/-- The prep-state labels recognized by `prep_ops_for`. -/
def recognizedPrepStates : List String :=
  ["Z+", "S0", "Z-", "X+", "X-", "Y+", "Y-", "S1", "S2", "S3"]


/-! ## Fragments (mlft/classes/Fragment.py) -/

/-- Comparison modelling the total order cirq places on `Qid`s (used only
through Python `sorted`). -/
def qubitLe (a b : Qubit) : Bool :=
  match a, b with
  | .line m, .line n => decide (m ≤ n)
  | .line _, .named _ => true
  | .named _, .line _ => false
  | .named s, .named t => decide (s ≤ t)

/-- A fragment of a cut-up circuit: the set of qubits addressed by its
sub-circuit (`circuit.all_qubits()`), and the quantum input/output dicts
(qubit → cut-name, in insertion order). -/
structure Fragment where
  qubits : List Qubit
  quantum_inputs : List (Qubit × String)
  quantum_outputs : List (Qubit × String)
deriving DecidableEq, Repr

/-- `circuit_outputs = sorted(circuit.all_qubits() - set(quantum_outputs))`
(`mlft/classes/Fragment.py`). -/
def Fragment.circuit_outputs (f : Fragment) : List Qubit :=
  sortBy qubitLe (f.qubits.filter (fun q => !(f.quantum_outputs.map Prod.fst).contains q))

/-- A concrete one-qubit fragment with no cuts (used by witnesses). -/
def exampleFragment : Fragment :=
  { qubits := [Qubit.line 0], quantum_inputs := [], quantum_outputs := [] }

/-! ## mlft/tomography.py: fragment tomography modes and shot budgeting -/

/-- The tomographically complete prep basis, a `Literal["Pauli", "SIC"]`
string in the source. -/
inductive PrepBasis where
  | Pauli
  | SIC
deriving DecidableEq, Repr

/-- The literal string value of the basis label. -/
def PrepBasis.str : PrepBasis → String
  | .Pauli => "Pauli"
  | .SIC => "SIC"

/-- `get_prep_states` (`prep_functions.py` lines 31-43). -/
def get_prep_states : PrepBasis → List String
  | .Pauli => ["Z+", "Z-", "X+", "X-", "Y+", "Y-"]
  | .SIC => ["S0", "S1", "S2", "S3"]

/-- `PAULI_OPS = ("Z", "X", "Y")` (`mlft/classes/const.py`). -/
def PAULI_OPS : List String := ["Z", "X", "Y"]

/-- `qubit_order = circuit_outputs + quantum_outputs` in
`perform_single_fragment_tomography` (`tomography.py` line 63); its length is
the number of fragment qubits measured. -/
def fragmentQubitOrder (f : Fragment) : List Qubit :=
  f.circuit_outputs ++ f.quantum_outputs.map Prod.fst

/-- `num_variants` as computed by `perform_fragment_tomography`
(`tomography.py` lines 27-31).  NOTE the source computes
`len(prep_basis) ** len(fragment.quantum_inputs)` where `prep_basis` is the
basis-name **string** (`"Pauli"` or `"SIC"`), so the base is the length of
the name (5 or 3), not the number of prep states in the basis (6 or 4). -/
def num_variants (prep_basis : PrepBasis) (fragments : List (String × Fragment)) : Nat :=
  (fragments.map (fun kf =>
    prep_basis.str.length ^ kf.2.quantum_inputs.length
      * PAULI_OPS.length ^ kf.2.quantum_outputs.length)).sum

/-- The number of genuine `(prep, meas)` settings the per-fragment tomography
loops actually enumerate (`itertools.product` over `get_prep_states` and
`PAULI_OPS`, `tomography.py` lines 78 and 91). -/
def total_settings (prep_basis : PrepBasis) (fragments : List (String × Fragment)) : Nat :=
  (fragments.map (fun kf =>
    (get_prep_states prep_basis).length ^ kf.2.quantum_inputs.length
      * PAULI_OPS.length ^ kf.2.quantum_outputs.length)).sum

/-- The operating mode a single-fragment tomography run settles into: exact
simulation (`cirq.final_state_vector`) or sampling, with the per-setting
repetition count handed to `simulator.run`. -/
inductive TomoMode where
  | exact
  | sampling (reps : Nat)
deriving DecidableEq, Repr

/-- The mode/shot decision of `perform_single_fragment_tomography`
(`tomography.py` lines 65-69): a truthy `repetitions_per_variant` (any
non-zero integer; `None` and `0` are falsy) selects sampling mode, and the
count is then **overwritten** with `max(10**4, 2**len(qubit_order))`;
otherwise the run is exact. -/
def single_fragment_mode (f : Fragment) (repetitions_per_variant : Option Int) : TomoMode :=
  match repetitions_per_variant with
  | none => .exact
  | some r =>
    if r = 0 then .exact
    else .sampling (max (10 ^ 4) (2 ^ (fragmentQubitOrder f).length))

/-- `perform_fragment_tomography` (`tomography.py` lines 21-38), modelled up
to the mode/shot decision of each per-fragment run: with `repetitions=None`
(the default) the expression `repetitions // num_variants` raises `TypeError`
before any tomography happens; an integer `repetitions` is floor-divided by
`num_variants` (`ZeroDivisionError` if zero) and the quotient passed to every
single-fragment run. -/
def perform_fragment_tomography (fragments : List (String × Fragment))
    (prep_basis : PrepBasis) (repetitions : Option Int) :
    Except PyError (List (String × TomoMode)) :=
  match repetitions with
  | none => .error .typeError
  | some r =>
    let n := num_variants prep_basis fragments
    if n = 0 then .error .zeroDivisionError
    else .ok (fragments.map (fun kf =>
      (kf.1, single_fragment_mode kf.2 (some (Int.fdiv r n)))))

/-! ## mlft/build_fragments.py: model building (rank_cutoff plumbing) -/

/-- Tomography data for one fragment as consumed by the model builder: the
fragment, the circuit-output bitstrings observed (`substrings()`, the keys
of the data dict) and the prep basis.  The per-condition probability table
is consumed only inside the external `scipy.linalg.lstsq` fit. -/
structure FragmentTomographyData where
  fragment : Fragment
  substrings : List (List Nat)
  prep_basis : PrepBasis
deriving DecidableEq, Repr

/-- The solver-facing record of one block built by
`build_conditional_fragment_model` (`build_fragments.py` lines 41-95): the
`cond` argument handed to the external `scipy.linalg.lstsq` call, the
cut-name index labels of the reshaped solution tensor, and its tags. -/
structure ModelBlockRecord where
  lstsq_cond : ℚ
  inds : List String
  tags : Option String
deriving DecidableEq, Repr

/-- The default `rank_cutoff = 1e-8`. -/
def defaultRankCutoff : ℚ := 1 / 100000000

/-- `build_conditional_fragment_model(fragment_tomography_data, substring, *,
fragment_key=None, rank_cutoff=1e-8)`: solves `A x ≈ b` with
`scipy.linalg.lstsq(..., cond=rank_cutoff)` and labels the reshaped solution
tensor with `quantum_inputs.values() + quantum_outputs.values()`; the record
tracks the solver's `cond` argument and those labels. -/
def build_conditional_fragment_model (d : FragmentTomographyData)
    (substring : List Nat) (fragment_key : Option String := none)
    (rank_cutoff : ℚ := defaultRankCutoff) : ModelBlockRecord :=
  { lstsq_cond := rank_cutoff
    inds := d.fragment.quantum_inputs.map Prod.snd ++ d.fragment.quantum_outputs.map Prod.snd
    tags := fragment_key }

/-- `build_single_fragment_model` (`build_fragments.py` lines 27-38): one
block per observed substring.  NOTE the call on line 35 passes **only**
`(fragment_tomography_data, substring)` — both `fragment_key` and
`rank_cutoff` fall back to their defaults, so the `rank_cutoff` this
function accepts is dropped. -/
def build_single_fragment_model (d : FragmentTomographyData)
    (fragment_key : Option String := none) (rank_cutoff : ℚ := defaultRankCutoff) :
    List (List Nat × ModelBlockRecord) :=
  d.substrings.map (fun s => (s, build_conditional_fragment_model d s))

/-- `build_fragment_models` (`build_fragments.py` lines 13-24): forwards its
`rank_cutoff` keyword (and the fragment key) to `build_single_fragment_model`
for each fragment. -/
def build_fragment_models (dict : List (String × FragmentTomographyData))
    (rank_cutoff : ℚ := defaultRankCutoff) :
    List (String × List (List Nat × ModelBlockRecord)) :=
  dict.map (fun kd => (kd.1, build_single_fragment_model kd.2 (some kd.1) rank_cutoff))

/-- A concrete tomography-data record for the example fragment. -/
def exampleTomographyData : FragmentTomographyData :=
  { fragment := exampleFragment, substrings := [[0], [1]], prep_basis := PrepBasis.SIC }


/-! ## mlft/cutting_methods.py: the circuit cutter -/

/-- An operation of a cirq circuit: the tuple of qubits it addresses. -/
abbrev Operation := List Qubit

/-- A moment: the operations played at one time index (cirq guarantees each
qubit is addressed at most once per moment). -/
abbrev Moment := List Operation

/-- A circuit: the ordered list of moments. -/
abbrev Circuit := List Moment

/-- `circuit.all_qubits()` of a (sliced) circuit. -/
def circuitQubits (c : Circuit) : List Qubit :=
  (c.flatten).flatten

/-- A cut `(moment_index, qubit)`. -/
abbrev Cut := Nat × Qubit

/-- Lexicographic comparison of cuts, modelling Python `sorted(cuts)`. -/
def cutLe (a b : Cut) : Bool :=
  if a.1 = b.1 then qubitLe a.2 b.2 else decide (a.1 ≤ b.1)

/-- Python dict assignment `d[k] = v`: replace the value at an existing key
(keeping its insertion position) or append a new pair. -/
def dictInsert [DecidableEq α] (d : List (α × β)) (k : α) (v : β) : List (α × β) :=
  if (d.map Prod.fst).contains k then
    d.map (fun kv => if kv.1 = k then (k, v) else kv)
  else d ++ [(k, v)]

/-- The running state of the cut loop of `cut_circuit`
(`cutting_methods.py` lines 27-64). -/
structure CutState where
  circuit : Circuit
  quantum_inputs : List (Qubit × String)
  quantum_outputs : List (Qubit × String)
  initial_to_final_qubit_map : List (Qubit × Qubit)
  cut_index : Nat
deriving DecidableEq, Repr

/-- `op.transform_qubits({old_qubit: new_qubit})`. -/
def transform_qubits (old new : Qubit) (op : Operation) : Operation :=
  op.map (fun q => if q = old then new else q)

/-- The inner loop of `cut_circuit` lines 50-55 records a replacement for the
**first** operation of each downstream moment that addresses `old_qubit` and
then `break`s; `circuit.batch_replace` then swaps exactly those operations. -/
def replaceFirstOp (old new : Qubit) : Moment → Moment
  | [] => []
  | op :: ops =>
    if old ∈ op then transform_qubits old new op :: ops
    else op :: replaceFirstOp old new ops

/-- Whether any downstream moment addresses `old_qubit`, i.e. whether the
`replacements` list of `cut_circuit` is non-empty. -/
def hasDownstreamOp (old : Qubit) (downstream : List Moment) : Bool :=
  downstream.any (fun mom => mom.any (fun op => decide (old ∈ op)))

/-- One iteration of the cut loop of `cut_circuit` (lines 37-64): resolve the
current qubit identity through `initial_to_final_qubit_map`, `continue` if
the cut is trivial (no upstream operations, or no downstream operations),
otherwise rewrite the downstream operations onto the fresh named qubit,
record the routing and the `quantum_inputs`/`quantum_outputs` entries, and
advance the cut index. -/
def cutStep (s : CutState) (cut : Cut) : CutState :=
  let cut_name := "cut_" ++ toString s.cut_index
  let old_qubit := (List.lookup cut.2 s.initial_to_final_qubit_map).getD cut.2
  let new_qubit := Qubit.named cut_name
  if (circuitQubits (s.circuit.take cut.1)).contains old_qubit = false then s
  else if hasDownstreamOp old_qubit (s.circuit.drop cut.1) = false then s
  else
    { circuit := s.circuit.take cut.1
        ++ (s.circuit.drop cut.1).map (replaceFirstOp old_qubit new_qubit)
      quantum_inputs := dictInsert s.quantum_inputs new_qubit cut_name
      quantum_outputs := dictInsert s.quantum_outputs old_qubit cut_name
      initial_to_final_qubit_map := dictInsert s.initial_to_final_qubit_map cut.2 new_qubit
      cut_index := s.cut_index + 1 }

/-- The cut loop of `cut_circuit`, folding over the (sorted) cuts. -/
def processCuts (s : CutState) (cuts : List Cut) : CutState :=
  cuts.foldl cutStep s

/-- The initial state of the loop. -/
def initCutState (circuit : Circuit) : CutState :=
  { circuit := circuit, quantum_inputs := [], quantum_outputs := [],
    initial_to_final_qubit_map := [], cut_index := 0 }

/-- The state `cut_circuit(circuit, cuts)` reaches after its cut loop, before
factorizing the rewritten circuit: each fragment then restricts this state's
`quantum_inputs`/`quantum_outputs` to the qubits of one connected component,
so a qubit absent from these dicts appears in no fragment's dicts. -/
def cut_circuit_state (circuit : Circuit) (cuts : List Cut) : CutState :=
  processCuts (initCutState circuit) (sortBy cutLe cuts)

/-- The triviality test of `cut_circuit` for a cut in a given state: the
resolved qubit has no operations strictly before the cut moment
(line 44), or none at or after it (line 57). -/
def isTrivialCut (s : CutState) (cut : Cut) : Bool :=
  let old_qubit := (List.lookup cut.2 s.initial_to_final_qubit_map).getD cut.2
  !(circuitQubits (s.circuit.take cut.1)).contains old_qubit ||
    !hasDownstreamOp old_qubit (s.circuit.drop cut.1)


/-! ## mlft/helper_functions/post_process.py: the outcome combiner -/

/-- `circuit_qubits` collected by `get_outcome_combiner`
(`post_process.py` line 52): for each fragment,
`fragment.circuit.all_qubits() - set(fragment.quantum_inputs)`. -/
def combinerCircuitQubits (fragments : List (String × Fragment)) : List Qubit :=
  (fragments.map (fun kf =>
    kf.2.qubits.filter (fun q => !(kf.2.quantum_inputs.map Prod.fst).contains q))).flatten

/-- `qubit_to_cut` (line 53): the union of all fragments' `quantum_outputs`
(dict update order). -/
def qubitToCut (fragments : List (String × Fragment)) : List (Qubit × String) :=
  fragments.foldl
    (fun d kf => kf.2.quantum_outputs.foldl (fun d2 qv => dictInsert d2 qv.1 qv.2) d) []

/-- `cut_to_qubit` (line 54): cut-name → downstream qubit, from all
fragments' `quantum_inputs`. -/
def cutToQubit (fragments : List (String × Fragment)) : List (String × Qubit) :=
  fragments.foldl
    (fun d kf => kf.2.quantum_inputs.foldl (fun d2 qv => dictInsert d2 qv.2 qv.1) d) []

/-- The routing loop `while qubit in qubit_to_cut: qubit =
cut_to_qubit[qubit_to_cut[qubit]]` (`post_process.py` lines 60-61), with
fuel: on acyclic routing the loop ends within `|qubit_to_cut| + 1` steps;
`none` models a `KeyError` on a dangling cut-name or a non-terminating
chain. -/
def chaseQubit (q2c : List (Qubit × String)) (c2q : List (String × Qubit)) :
    Nat → Qubit → Option Qubit
  | 0, q => if (List.lookup q q2c).isNone then some q else none
  | fuel + 1, q =>
    match List.lookup q q2c with
    | none => some q
    | some cut =>
      match List.lookup cut c2q with
      | none => none
      | some q2 => chaseQubit q2c c2q fuel q2

/-- `get_outcome_combiner` (`post_process.py` lines 25-85): chase the routing
for every circuit qubit (building `initial_to_final_qubit_map`), resolve the
qubit order (defaulting to `sorted(circuit_qubits)`), map it through the
routing (`initial_to_final_qubit_map.get(qubit) or qubit`), and compute
`bit_permutation` — for each position of the requested order, the index of
its final qubit in the concatenation of all fragments' `circuit_outputs` in
fragment-then-local order.  Returns the data captured by the
`outcome_combiner` closure (the fragment keys and `bit_permutation`);
`none` models the Python error paths (`KeyError` on a dangling cut name,
`ValueError` from `list.index` when a final qubit is not a circuit output)
and non-terminating routing. -/
def get_outcome_combiner (fragments : List (String × Fragment))
    (qubit_order : Option (List Qubit)) : Option (List String × List Nat) :=
  let circuit_qubits := combinerCircuitQubits fragments
  let q2c := qubitToCut fragments
  let c2q := cutToQubit fragments
  let fuel := q2c.length + 1
  (circuit_qubits.mapM
      (fun q => (chaseQubit q2c c2q fuel q).map (fun r => (q, r)))).bind
    (fun i2f =>
      let qo := qubit_order.getD (sortBy qubitLe circuit_qubits)
      let final_qubit_order := qo.map (fun q => (List.lookup q i2f).getD q)
      let fragment_keys := fragments.map Prod.fst
      let contacenated_qubits := (fragments.map (fun kf => kf.2.circuit_outputs)).flatten
      (final_qubit_order.mapM (fun q =>
          if contacenated_qubits.contains q
          then some (contacenated_qubits.indexOf q) else none)).map
        (fun bit_permutation => (fragment_keys, bit_permutation)))

/-- The `outcome_combiner(fragment_substrings)` closure returned by
`get_outcome_combiner` (`post_process.py` lines 76-83): look up each
fragment's substring by key, concatenate in fragment-key order, and read the
bit at each `bit_permutation` index (`none` models a `KeyError` on a missing
fragment key or an `IndexError` on a too-short substring). -/
def outcome_combiner_apply (fragment_keys : List String) (bit_permutation : List Nat)
    (fragment_substrings : List (String × List Nat)) : Option (List Nat) :=
  (fragment_keys.mapM (fun k => List.lookup k fragment_substrings)).bind
    (fun substrings => bit_permutation.mapM (fun idx => substrings.flatten[idx]?))

/-- The bit a combined outcome should carry at the position of a final qubit,
following the spec: the bit of the concatenated `(qubit, bit)` pairs — the
fragments' circuit-output qubits in fragment-then-local order, paired with
the corresponding substring bits — that belongs to that qubit.  (Stated from
the spec's words, for comparison with the index-permutation computed by
`get_outcome_combiner`.) -/
def specBitForQubit (fragments : List (String × Fragment))
    (fragment_substrings : List (String × List Nat)) (q : Qubit) : Option Nat :=
  ((fragments.map Prod.fst).mapM (fun k => List.lookup k fragment_substrings)).bind
    (fun subs => List.lookup q
      (((fragments.map (fun kf => kf.2.circuit_outputs)).flatten).zip subs.flatten))


/-- A two-fragment cut circuit for the combiner witness: `fragment_0` has
circuit output qubit 0 and quantum output qubit 1 (routed through `cut_0`),
`fragment_1` continues on `NamedQubit("cut_0")` with circuit outputs qubit 2
and the named qubit. -/
def witnessFragments : List (String × Fragment) :=
  [("fragment_0",
    { qubits := [Qubit.line 0, Qubit.line 1], quantum_inputs := [],
      quantum_outputs := [(Qubit.line 1, "cut_0")] }),
   ("fragment_1",
    { qubits := [Qubit.named "cut_0", Qubit.line 2],
      quantum_inputs := [(Qubit.named "cut_0", "cut_0")],
      quantum_outputs := [] })]

/-- Concrete per-fragment circuit-output substrings for the witness. -/
def witnessSubstrings : List (String × List Nat) :=
  [("fragment_0", [1]), ("fragment_1", [0, 1])]

/-! ## Supporting lemmas for the sort and the elimination loop -/

theorem sortInsert_perm (le : α → α → Bool) (a : α) (l : List α) :
    List.Perm (sortInsert le a l) (a :: l) := by
  induction l with
  | nil => simp [sortInsert]
  | cons b t ih =>
    simp only [sortInsert]
    by_cases h : le a b
    · simp [h]
    · simp only [h, if_neg]
      exact List.Perm.trans (List.Perm.cons b ih) (List.Perm.swap a b t)

theorem sortBy_perm (le : α → α → Bool) (l : List α) :
    List.Perm (sortBy le l) l := by
  induction l with
  | nil => simp [sortBy]
  | cons a t ih =>
    exact List.Perm.trans (sortInsert_perm le a (sortBy le t)) (List.Perm.cons a ih)

theorem sortInsert_pairwise (le : α → α → Bool)
    (htot : ∀ a b, le a b = true ∨ le b a = true)
    (htrans : ∀ a b c, le a b = true → le b c = true → le a c = true)
    (a : α) (l : List α) (hl : l.Pairwise (fun x y => le x y = true)) :
    (sortInsert le a l).Pairwise (fun x y => le x y = true) := by
  induction l with
  | nil => simp [sortInsert]
  | cons b t ih =>
    rcases List.pairwise_cons.mp hl with ⟨hb, ht⟩
    simp only [sortInsert]
    by_cases h : le a b
    · simp only [h, if_true]
      refine List.pairwise_cons.mpr ⟨?_, hl⟩
      intro x hx
      rcases List.mem_cons.mp hx with hx | hx
      · subst hx
        exact h
      · exact htrans a b x h (hb x hx)
    · simp only [h, if_neg, Bool.false_eq_true, not_false_iff]
      refine List.pairwise_cons.mpr ⟨?_, ih ht⟩
      intro x hx
      have hx2 : x = a ∨ x ∈ t := by
        have := (sortInsert_perm le a t).mem_iff.mp hx
        simpa using this
      rcases hx2 with hx2 | hx2
      · rcases htot a b with h1 | h1
        · exact absurd h1 (by simpa using h)
        · rw [hx2]
          exact h1
      · exact hb x hx2

theorem sortBy_pairwise (le : α → α → Bool)
    (htot : ∀ a b, le a b = true ∨ le b a = true)
    (htrans : ∀ a b c, le a b = true → le b c = true → le a c = true)
    (l : List α) : (sortBy le l).Pairwise (fun x y => le x y = true) := by
  induction l with
  | nil => simp [sortBy]
  | cons a t ih => exact sortInsert_pairwise le htot htrans a (sortBy le t) ih

theorem correctLoopF_length : ∀ (n : Nat) (m : List ℚ), m.length = n →
    (correctLoopF n m).length = m.length := by
  intro n
  induction n with
  | zero =>
    intro m hn
    rw [List.length_eq_zero] at hn
    subst hn
    simp [correctLoopF]
  | succ n ih =>
    intro m hn
    match m with
    | [] => simp at hn
    | v :: rest =>
      simp only [correctLoopF]
      by_cases h : 0 ≤ v
      · simp [h]
      · simp only [h, if_neg, not_false_iff, List.length_cons]
        rw [ih (rest.map (fun x => x + v / (rest.length : ℚ)))
          (by simpa using Nat.succ_injective hn)]
        simp

theorem correctLoop_length (m : List ℚ) : (correctLoop m).length = m.length :=
  correctLoopF_length m.length m rfl

theorem correctLoopF_nonneg : ∀ (n : Nat) (m : List ℚ), m.length = n →
    m.Pairwise (· ≤ ·) → ∀ x ∈ correctLoopF n m, 0 ≤ x := by
  intro n
  induction n with
  | zero =>
    intro m hn _
    rw [List.length_eq_zero] at hn
    subst hn
    simp [correctLoopF]
  | succ n ih =>
    intro m hn hm
    match m with
    | [] => simp at hn
    | v :: rest =>
      rcases List.pairwise_cons.mp hm with ⟨hv, hrest⟩
      simp only [correctLoopF]
      by_cases h : 0 ≤ v
      · simp only [h, if_true]
        intro x hx
        rcases List.mem_cons.mp hx with hx | hx
        · subst hx
          exact h
        · exact le_trans h (hv x hx)
      · simp only [h, if_neg, not_false_iff]
        intro x hx
        rcases List.mem_cons.mp hx with hx | hx
        · subst hx
          exact le_refl 0
        · refine ih (rest.map (fun x => x + v / (rest.length : ℚ)))
            (by simpa using Nat.succ_injective hn) ?_ x hx
          refine List.pairwise_map.mpr ?_
          exact hrest.imp (fun hab => by linarith)

theorem correctLoop_nonneg (m : List ℚ) (hm : m.Pairwise (· ≤ ·)) :
    ∀ x ∈ correctLoop m, 0 ≤ x :=
  correctLoopF_nonneg m.length m rfl hm

theorem sum_map_add_const (l : List ℚ) (c : ℚ) :
    (l.map (fun x => x + c)).sum = l.sum + l.length * c := by
  induction l with
  | nil => simp
  | cons a t ih =>
    simp only [List.map_cons, List.sum_cons, ih, List.length_cons]
    push_cast
    ring

theorem correctLoopF_sum : ∀ (n : Nat) (m : List ℚ), m.length = n →
    0 ≤ m.sum → (correctLoopF n m).sum = m.sum := by
  intro n
  induction n with
  | zero =>
    intro m hn _
    rw [List.length_eq_zero] at hn
    subst hn
    simp [correctLoopF]
  | succ n ih =>
    intro m hn hm
    match m with
    | [] => simp at hn
    | v :: rest =>
      simp only [correctLoopF]
      by_cases h : 0 ≤ v
      · simp [h]
      · simp only [h, if_neg, not_false_iff, List.sum_cons]
        match rest, hn, hm with
        | [], hn, hm =>
          exfalso
          simp only [List.sum_cons, List.sum_nil, add_zero] at hm
          exact h hm
        | r :: rs, hn, hm =>
          have hlen : ((r :: rs).length : ℚ) ≠ 0 := by
            simp only [List.length_cons]
            push_cast
            positivity
          have hsum : ((r :: rs).map (fun x => x + v / ((r :: rs).length : ℚ))).sum
              = (r :: rs).sum + v := by
            rw [sum_map_add_const]
            field_simp
          rw [ih ((r :: rs).map (fun x => x + v / (((r :: rs).length : Nat) : ℚ)))
            (by simpa using Nat.succ_injective hn) ?_]
          · rw [hsum]
            simp only [List.sum_cons] at hm ⊢
            ring
          · rw [hsum]
            simp only [List.sum_cons] at hm ⊢
            linarith

theorem correctLoop_sum (m : List ℚ) (hm : 0 ≤ m.sum) :
    (correctLoop m).sum = m.sum :=
  correctLoopF_sum m.length m rfl hm

theorem sum_nonneg_of_pairwise_le (v : ℚ) (rest : List ℚ) (hv : 0 ≤ v)
    (h : ∀ x ∈ rest, v ≤ x) : 0 ≤ (v :: rest).sum := by
  have : ∀ x ∈ rest, (0:ℚ) ≤ x := fun x hx => le_trans hv (h x hx)
  simp only [List.sum_cons]
  have := List.sum_nonneg this
  linarith

theorem correctLoopDivFlagF_iff : ∀ (n : Nat) (m : List ℚ), m.length = n →
    m.Pairwise (· ≤ ·) → (correctLoopDivFlagF n m = true ↔ m ≠ [] ∧ m.sum < 0) := by
  intro n
  induction n with
  | zero =>
    intro m hn _
    rw [List.length_eq_zero] at hn
    subst hn
    simp [correctLoopDivFlagF]
  | succ n ih =>
    intro m hn hm
    match m with
    | [] => simp at hn
    | v :: rest =>
      rcases List.pairwise_cons.mp hm with ⟨hv, hrest⟩
      simp only [correctLoopDivFlagF]
      by_cases h : 0 ≤ v
      · simp only [h, if_true]
        constructor
        · intro hc
          exact absurd hc (by simp)
        · intro hc
          exact absurd hc.2 (not_lt.mpr (sum_nonneg_of_pairwise_le v rest h hv))
      · simp only [h, if_neg, not_false_iff]
        match rest, hn, hrest with
        | [], hn, hrest =>
          simp only [List.isEmpty_nil, if_true, List.sum_cons, List.sum_nil, add_zero]
          constructor
          · intro _
            exact ⟨by simp, lt_of_not_le h⟩
          · intro _
            trivial
        | r :: rs, hn, hrest =>
          simp only [List.isEmpty_cons, if_neg, Bool.false_eq_true, not_false_iff]
          have hlen : (((r :: rs).length : ℚ)) ≠ 0 := by
            simp only [List.length_cons]
            push_cast
            positivity
          have hsum : ((r :: rs).map (fun x => x + v / ((r :: rs).length : ℚ))).sum
              = (r :: rs).sum + v := by
            rw [sum_map_add_const]
            field_simp
          rw [ih ((r :: rs).map (fun x => x + v / ((r :: rs).length : ℚ)))
            (by simpa using Nat.succ_injective hn)
            (List.pairwise_map.mpr (hrest.imp (fun hab => by linarith)))]
          rw [hsum]
          constructor
          · intro hc
            refine ⟨by simp, ?_⟩
            simp only [List.sum_cons] at hc ⊢
            linarith [hc.2]
          · intro hc
            refine ⟨by simp, ?_⟩
            simp only [List.sum_cons] at hc ⊢
            linarith [hc.2]

theorem correctLoopDivFlag_iff (m : List ℚ) (hm : m.Pairwise (· ≤ ·)) :
    correctLoopDivFlag m = true ↔ m ≠ [] ∧ m.sum < 0 :=
  correctLoopDivFlagF_iff m.length m rfl hm

theorem map_getD_range (l : List ℚ) :
    (List.range l.length).map (fun i => l.getD i 0) = l := by
  induction l with
  | nil => simp
  | cons a t ih =>
    simp only [List.length_cons, List.range_succ_eq_map, List.map_cons, List.map_map]
    refine congrArg (a :: ·) ?_
    have h : ((fun i => (a :: t).getD i 0) ∘ Nat.succ) = fun i => t.getD i 0 :=
      funext fun i => List.getD_cons_succ
    rw [h, ih]

theorem indexOf_map_perm (order : List Nat) (n : Nat)
    (hord : List.Perm order (List.range n)) :
    List.Perm ((List.range n).map (fun k => order.indexOf k)) (List.range n) := by
  have hlen : order.length = n := by simpa using hord.length_eq
  have hmem : ∀ k, k ∈ List.range n → k ∈ order := fun k hk => hord.mem_iff.mpr hk
  have hnd : ((List.range n).map (fun k => order.indexOf k)).Nodup := by
    refine (List.nodup_range n).map_on ?_
    intro k1 h1 k2 h2 heq
    have hk1 : order.indexOf k1 < order.length := List.indexOf_lt_length.mpr (hmem k1 h1)
    have hk2 : order.indexOf k2 < order.length := List.indexOf_lt_length.mpr (hmem k2 h2)
    have e1 := List.indexOf_get hk1
    have e2 := List.indexOf_get hk2
    rw [← e1, ← e2]
    congr 1
    exact Fin.ext heq
  have hsub : ((List.range n).map (fun k => order.indexOf k)) ⊆ List.range n := by
    intro j hj
    rcases List.mem_map.mp hj with ⟨k, hk, rfl⟩
    have : order.indexOf k < order.length := List.indexOf_lt_length.mpr (hmem k hk)
    exact List.mem_range.mpr (hlen ▸ this)
  refine List.Subperm.perm_of_length_le (List.subperm_of_subset hnd hsub) ?_
  simp

theorem unsort_perm (order : List Nat) (cs : List ℚ) (n : Nat)
    (hord : List.Perm order (List.range n)) (hlen : cs.length = n) :
    List.Perm ((List.range n).map (fun k => cs.getD (order.indexOf k) 0)) cs := by
  have h1 : (List.range n).map (fun k => cs.getD (order.indexOf k) 0)
      = ((List.range n).map (fun k => order.indexOf k)).map (fun j => cs.getD j 0) := by
    rw [List.map_map]
    rfl
  rw [h1]
  have h2 := (indexOf_map_perm order n hord).map (fun j => cs.getD j 0)
  have h3 : (List.range n).map (fun j => cs.getD j 0) = cs := by
    subst hlen
    exact map_getD_range cs
  rw [h3] at h2
  exact h2

theorem argsortQ_perm (l : List ℚ) :
    List.Perm (argsortQ l) (List.range l.length) :=
  sortBy_perm _ _

theorem argsortQ_sorted (l : List ℚ) :
    ((argsortQ l).map (fun i => l.getD i 0)).Pairwise (· ≤ ·) := by
  have htot : ∀ a b : Nat, (decide (l.getD a 0 ≤ l.getD b 0)) = true ∨
      (decide (l.getD b 0 ≤ l.getD a 0)) = true := by
    intro a b
    rcases le_total (l.getD a 0) (l.getD b 0) with h1 | h1
    · exact Or.inl (decide_eq_true h1)
    · exact Or.inr (decide_eq_true h1)
  have htrans : ∀ a b c : Nat, (decide (l.getD a 0 ≤ l.getD b 0)) = true →
      (decide (l.getD b 0 ≤ l.getD c 0)) = true →
      (decide (l.getD a 0 ≤ l.getD c 0)) = true := by
    intro a b c hab hbc
    exact decide_eq_true (le_trans (of_decide_eq_true hab) (of_decide_eq_true hbc))
  have h := sortBy_pairwise (fun i j => decide (l.getD i 0 ≤ l.getD j 0)) htot htrans
    (List.range l.length)
  refine List.pairwise_map.mpr ?_
  exact h.imp (fun hab => of_decide_eq_true hab)

theorem sortedVals_perm (l : List ℚ) :
    List.Perm ((argsortQ l).map (fun i => l.getD i 0)) l := by
  have h := (argsortQ_perm l).map (fun i => l.getD i 0)
  rw [map_getD_range l] at h
  exact h

theorem sortedVals_length (l : List ℚ) :
    ((argsortQ l).map (fun i => l.getD i 0)).length = l.length := by
  simpa using (sortedVals_perm l).length_eq

/-! ## Claim theorems about `correct_probability_distribution` -/

/-- C3: every entry of the array returned by `correct_probability_distribution`
is non-negative, for every input array — negative entries are zeroed in
increasing order and the values redistributed to the right never push the
break-point entry below zero. -/
theorem correct_probability_distribution_nonneg :
    ∀ (l : List ℚ), ∀ x ∈ correct_probability_distribution l, 0 ≤ x := by
  intro l x hx
  have hcs_len : (correctLoop ((argsortQ l).map (fun i => l.getD i 0))).length = l.length := by
    rw [correctLoop_length]
    exact sortedVals_length l
  have hperm := unsort_perm (argsortQ l)
    (correctLoop ((argsortQ l).map (fun i => l.getD i 0))) l.length (argsortQ_perm l) hcs_len
  simp only [correct_probability_distribution] at hx
  exact correctLoop_nonneg _ (argsortQ_sorted l) x (hperm.mem_iff.mp hx)

/-- Witness for C3 at the concrete input `[-1, 2]` (corrected to `[0, 1]`). -/
theorem correct_probability_distribution_nonneg_witness :
    (0 : ℚ) ≤ (correct_probability_distribution [-1, 2]).getD 0 0 :=
  correct_probability_distribution_nonneg [-1, 2] _ (by
    have h : correct_probability_distribution [-1, 2] = [0, 1] := by
      norm_num [correct_probability_distribution, argsortQ, sortBy, sortInsert, correctLoop,
        correctLoopF, List.range_succ, List.indexOf_cons, cond_eq_if, beq_iff_eq, List.getD]
    rw [h]
    norm_num)

/-- C2 (amended): the total of the eigenvalue array is preserved exactly by
`correct_probability_distribution` whenever the total is non-negative (each
elimination step moves the zeroed value onto the entries to its right, and
with a non-negative total the loop always breaks before the last entry is
processed with nothing to its right). -/
theorem correct_probability_distribution_sum_eq (l : List ℚ) (h : 0 ≤ l.sum) :
    (correct_probability_distribution l).sum = l.sum := by
  have hsum_sv : ((argsortQ l).map (fun i => l.getD i 0)).sum = l.sum :=
    (sortedVals_perm l).sum_eq
  have hloop := correctLoop_sum ((argsortQ l).map (fun i => l.getD i 0))
    (by rw [hsum_sv]; exact h)
  have hcs_len : (correctLoop ((argsortQ l).map (fun i => l.getD i 0))).length = l.length := by
    rw [correctLoop_length]
    exact sortedVals_length l
  have hperm := unsort_perm (argsortQ l)
    (correctLoop ((argsortQ l).map (fun i => l.getD i 0))) l.length (argsortQ_perm l) hcs_len
  have hfinal := hperm.sum_eq
  simp only [correct_probability_distribution]
  rw [hfinal, hloop, hsum_sv]

/-- C2 counterexample: an all-negative eigenvalue array (realizable, e.g. the
two eigenvalues of a one-qubit block whose Choi matrix is `-I`) is corrected
to all zeros, so the total `-2` is **not** preserved. -/
theorem correct_probability_distribution_sum_counterexample :
    (correct_probability_distribution [-1, -1]).sum ≠ ([-1, -1] : List ℚ).sum := by
  have h : correct_probability_distribution [-1, -1] = [0, 0] := by
    norm_num [correct_probability_distribution, argsortQ, sortBy, sortInsert, correctLoop,
      correctLoopF, List.range_succ, List.indexOf_cons, cond_eq_if, beq_iff_eq, List.getD]
  rw [h]
  norm_num

/-- Witness for the amended C2 at the concrete input `[-1, 2]` (total `1`). -/
theorem correct_probability_distribution_sum_witness :
    0 ≤ ([-1, 2] : List ℚ).sum ∧
      (correct_probability_distribution [-1, 2]).sum = ([-1, 2] : List ℚ).sum :=
  ⟨by norm_num, correct_probability_distribution_sum_eq [-1, 2] (by norm_num)⟩

/-- C10 (amended): the redistribution divisor `num_vals_remaining` is zero only
in the iteration that processes the last sorted entry, and that division is
reached exactly when the input array is non-empty and its **total sum** is
negative (not only when every entry is negative). -/
theorem correct_probability_distribution_div_by_zero_iff :
    ∀ (l : List ℚ), correct_probability_distribution_div_by_zero l = true ↔
      l ≠ [] ∧ l.sum < 0 := by
  intro l
  unfold correct_probability_distribution_div_by_zero
  rw [correctLoopDivFlag_iff _ (argsortQ_sorted l)]
  rw [(sortedVals_perm l).sum_eq]
  refine and_congr_left' ?_
  rw [← List.length_pos, ← List.length_pos, sortedVals_length]

/-- C10 counterexample: the input `[-10, 1]` has a non-negative entry, yet the
division-by-zero iteration **is** reached (after the first elimination the
array is `[0, -9]`, and `-9` is processed with nothing to its right). -/
theorem correct_probability_distribution_div_by_zero_counterexample :
    (∃ x ∈ ([-10, 1] : List ℚ), 0 ≤ x) ∧
      correct_probability_distribution_div_by_zero [-10, 1] = true := by
  constructor
  · exact ⟨1, by norm_num, by norm_num⟩
  · norm_num [correct_probability_distribution_div_by_zero, correctLoopDivFlag,
      correctLoopDivFlagF, argsortQ, sortBy, sortInsert, List.range_succ, List.getD]

/-! ## Claim theorems about prep_functions.py label dispatch -/

theorem prep_ops_for_unrecognized (ps : String) (q : Qubit)
    (h : ps ∉ recognizedPrepStates) :
    prep_ops_for ps q = .error (.valueError ("state not recognized: " ++ ps)) := by
  simp only [recognizedPrepStates, List.mem_cons, List.not_mem_nil, or_false] at h
  push_neg at h
  obtain ⟨h1, h2, h3, h4, h5, h6, h7, h8, h9, h10⟩ := h
  simp [prep_ops_for, h1, h2, h3, h4, h5, h6, h7, h8, h9, h10]

theorem prep_ops_for_recognized (ps : String) (q : Qubit)
    (h : ps ∈ recognizedPrepStates) : ∃ ops, prep_ops_for ps q = .ok ops := by
  fin_cases h <;> exact ⟨_, rfl⟩

theorem prep_state_ops_error_of_unrecognized :
    ∀ (states : List String) (qubits : List Qubit) (ps : String) (q : Qubit),
      (ps, q) ∈ states.zip qubits → ps ∉ recognizedPrepStates →
      ∃ msg, prep_state_ops states qubits = .error (.valueError msg) := by
  intro states
  induction states with
  | nil =>
    intro qubits ps q hmem _
    simp at hmem
  | cons s ss ih =>
    intro qubits ps q hmem hunrec
    match qubits with
    | [] => simp at hmem
    | q0 :: qs =>
      simp only [List.zip_cons_cons, List.mem_cons] at hmem
      rcases hmem with hmem | hmem
      · have hps : ps = s := congrArg Prod.fst hmem
        subst hps
        refine ⟨"state not recognized: " ++ ps, ?_⟩
        simp [prep_state_ops, prep_ops_for_unrecognized ps q0 hunrec, Bind.bind, Except.bind]
      · by_cases hrec : s ∈ recognizedPrepStates
        · obtain ⟨ops, hops⟩ := prep_ops_for_recognized s q0 hrec
          obtain ⟨msg, hmsg⟩ := ih qs ps q hmem hunrec
          refine ⟨msg, ?_⟩
          simp [prep_state_ops, hops, hmsg, Bind.bind, Except.bind, Functor.map, Except.map]
        · refine ⟨"state not recognized: " ++ s, ?_⟩
          simp [prep_state_ops, prep_ops_for_unrecognized s q0 hrec, Bind.bind, Except.bind]

/-- C4 counterexample: the unrecognized measurement-basis label `"W"` is
processed by `meas_basis_ops` without any error, and yields exactly the same
(empty) operation list as the recognized computational-basis label `"Z"` —
the engine silently substitutes the default measurement instead of
raising. -/
theorem meas_basis_ops_unrecognized_counterexample :
    meas_basis_ops ["W"] [Qubit.line 0] = [] ∧
      meas_basis_ops ["Z"] [Qubit.line 0] = [] :=
  ⟨rfl, rfl⟩

/-- C4 (amended): `prep_state_ops` does fail fast — any unrecognized
prep-state label paired with a qubit makes the whole (consumed) generator
raise `ValueError` — but `meas_basis_ops` does **not**: it is a total
function with no `raise` branch, and every label other than `"X"` and `"Y"`
(whether the legitimate `"Z"` or an unrecognized string) is silently given
the default computational-basis measurement with no rotation. -/
theorem prep_fails_fast_meas_silently_defaults :
    (∀ (states : List String) (qubits : List Qubit) (ps : String) (q : Qubit),
      (ps, q) ∈ states.zip qubits → ps ∉ recognizedPrepStates →
      ∃ msg, prep_state_ops states qubits = .error (.valueError msg)) ∧
    (∀ (b : String) (q : Qubit), b ≠ "X" → b ≠ "Y" → meas_ops_for b q = []) := by
  constructor
  · exact prep_state_ops_error_of_unrecognized
  · intro b q hX hY
    simp [meas_ops_for, hX, hY]

/-- Witness for amended C4 at the unrecognized labels `"W"` (prep) and
`"Q"` (measurement basis). -/
theorem prep_fails_fast_meas_silently_defaults_witness :
    (∃ msg, prep_state_ops ["W"] [Qubit.line 0] = .error (.valueError msg)) ∧
      meas_ops_for "Q" (Qubit.line 0) = [] :=
  ⟨prep_fails_fast_meas_silently_defaults.1 ["W"] [Qubit.line 0] "W" (Qubit.line 0)
      (by simp) (by simp [recognizedPrepStates]),
    prep_fails_fast_meas_silently_defaults.2 "Q" (Qubit.line 0)
      (by simp) (by simp)⟩

/-! ## Claim theorems about tomography budgeting and the model builder -/

theorem num_variants_pos (fragments : List (String × Fragment)) (pb : PrepBasis)
    (h : fragments ≠ []) : 0 < num_variants pb fragments := by
  match fragments, h with
  | kf :: rest, _ =>
    have hbase : 0 < pb.str.length := by cases pb <;> decide
    have hterm : 0 < pb.str.length ^ kf.2.quantum_inputs.length
        * PAULI_OPS.length ^ kf.2.quantum_outputs.length := by
      have h3 : (0:Nat) < PAULI_OPS.length := by decide
      exact Nat.mul_pos (Nat.pos_pow_of_pos _ hbase) (Nat.pos_pow_of_pos _ h3)
    simp only [num_variants, List.map_cons, List.sum_cons]
    exact Nat.lt_of_lt_of_le hterm (Nat.le_add_right _ _)

theorem num_variants_le_total_settings (fragments : List (String × Fragment))
    (pb : PrepBasis) : num_variants pb fragments ≤ total_settings pb fragments := by
  unfold num_variants total_settings
  induction fragments with
  | nil => simp
  | cons kf rest ih =>
    simp only [List.map_cons, List.sum_cons]
    have hbase : pb.str.length ≤ (get_prep_states pb).length := by cases pb <;> decide
    have hterm : pb.str.length ^ kf.2.quantum_inputs.length
        * PAULI_OPS.length ^ kf.2.quantum_outputs.length
        ≤ (get_prep_states pb).length ^ kf.2.quantum_inputs.length
        * PAULI_OPS.length ^ kf.2.quantum_outputs.length :=
      Nat.mul_le_mul_right _ (Nat.pow_le_pow_left hbase _)
    exact Nat.add_le_add hterm ih

theorem int_fdiv_eq_zero_bounds (r : Int) (n : Nat) (hn : 0 < n)
    (h : Int.fdiv r n = 0) : 0 ≤ r ∧ r < n := by
  have hn2 : (0:Int) < n := by exact_mod_cast hn
  rw [Int.fdiv_eq_ediv _ (le_of_lt hn2)] at h
  have hmod := Int.emod_nonneg r hn2.ne'
  have hmodlt := Int.emod_lt_of_pos r hn2
  have hdm := Int.ediv_add_emod r n
  rw [h, mul_zero, zero_add] at hdm
  constructor
  · rw [← hdm]
    exact hmod
  · rw [← hdm]
    exact hmodlt

/-- C9: for every non-empty fragment dictionary, calling
`perform_fragment_tomography` with its default `repetitions=None` raises a
`TypeError` at the floor division `repetitions // num_variants` before any
tomography is run; through this entry point a per-fragment run is exact
exactly when the integer division gives `0`, which forces
`0 ≤ repetitions < num_variants ≤ total settings` (so an integer strictly
smaller than the number of settings, with per-setting count `0`); and
calling `perform_single_fragment_tomography` directly with
`repetitions_per_variant=None` is the other exact path. -/
theorem tomography_requires_explicit_repetitions
    (fragments : List (String × Fragment)) (pb : PrepBasis)
    (hne : fragments ≠ []) :
    perform_fragment_tomography fragments pb none = .error PyError.typeError ∧
    (∀ (r : Int) (modes : List (String × TomoMode)),
      perform_fragment_tomography fragments pb (some r) = .ok modes →
        ((∃ km ∈ modes, km.2 = TomoMode.exact) ↔
          Int.fdiv r (num_variants pb fragments) = 0)) ∧
    (∀ r : Int, Int.fdiv r (num_variants pb fragments) = 0 →
      0 ≤ r ∧ r < num_variants pb fragments ∧ r < total_settings pb fragments) ∧
    (∀ f : Fragment, single_fragment_mode f none = TomoMode.exact) := by
  have hpos := num_variants_pos fragments pb hne
  refine ⟨rfl, ?_, ?_, fun f => rfl⟩
  · intro r modes hok
    simp only [perform_fragment_tomography, Nat.pos_iff_ne_zero.mp hpos, if_neg,
      not_false_iff, Except.ok.injEq] at hok
    subst hok
    constructor
    · rintro ⟨km, hkm, hexact⟩
      rcases List.mem_map.mp hkm with ⟨kf, _, rfl⟩
      simp only [single_fragment_mode] at hexact
      by_cases hz : Int.fdiv r (num_variants pb fragments) = 0
      · exact hz
      · simp [hz] at hexact
    · intro hz
      match fragments, hne with
      | kf :: rest, _ =>
        refine ⟨(kf.1, single_fragment_mode kf.2 (some (Int.fdiv r
          (num_variants pb (kf :: rest))))), by simp, ?_⟩
        simp [single_fragment_mode, hz]
  · intro r hz
    obtain ⟨h0, h1⟩ := int_fdiv_eq_zero_bounds r (num_variants pb fragments) hpos hz
    refine ⟨h0, h1, lt_of_lt_of_le h1 ?_⟩
    exact_mod_cast num_variants_le_total_settings fragments pb

/-- Witness for C9: a single cut-free one-qubit fragment; `None` repetitions
raise `TypeError`, and `repetitions = 0 < 1` settings gives the exact mode. -/
theorem tomography_requires_explicit_repetitions_witness :
    perform_fragment_tomography [("fragment_0", exampleFragment)] PrepBasis.SIC none
        = .error PyError.typeError ∧
      (0:Int) ≤ 0 ∧ (0:Int) < num_variants PrepBasis.SIC [("fragment_0", exampleFragment)] := by
  have h := tomography_requires_explicit_repetitions
    [("fragment_0", exampleFragment)] PrepBasis.SIC (by simp)
  refine ⟨h.1, le_refl 0, ?_⟩
  exact (h.2.2.1 0 (by decide)).2.1

/-- C6 (amended): in sampling mode the per-setting shot count is **always**
`max(10_000, 2^(number of fragment qubits))`, for every fragment and every
requested total: the evenly-divided share `repetitions // num_variants` is
used only to choose between exact mode (share `0`) and sampling mode
(share non-zero), and is then overwritten by the floor expression.  (The
divisor `num_variants` is itself computed from the length of the prep-basis
name string, not from the number of prep states.) -/
theorem sampling_mode_shot_floor (fragments : List (String × Fragment))
    (pb : PrepBasis) (r : Int) (hn : num_variants pb fragments ≠ 0) :
    perform_fragment_tomography fragments pb (some r) =
      .ok (fragments.map (fun kf =>
        (kf.1, single_fragment_mode kf.2 (some (Int.fdiv r (num_variants pb fragments)))))) ∧
    (∀ (f : Fragment) (v : Int), v ≠ 0 →
      single_fragment_mode f (some v) =
        TomoMode.sampling (max (10 ^ 4) (2 ^ (fragmentQubitOrder f).length))) := by
  constructor
  · simp [perform_fragment_tomography, hn]
  · intro f v hv
    simp [single_fragment_mode, hv]

/-- Witness for the amended C6: one cut-free one-qubit fragment
(`num_variants = 1`), 5 requested repetitions: sampling mode with
`max(10^4, 2^1) = 10000` shots per setting. -/
theorem sampling_mode_shot_floor_witness :
    perform_fragment_tomography [("fragment_0", exampleFragment)] PrepBasis.SIC (some 5) =
      .ok [("fragment_0", TomoMode.sampling 10000)] := by
  have h := sampling_mode_shot_floor [("fragment_0", exampleFragment)] PrepBasis.SIC 5
    (by decide)
  rw [h.1]
  rfl

/-- C6 counterexample: one cut-free one-qubit fragment gives exactly one
setting, and `repetitions = 100000` makes the evenly-divided share
`floor(100000 / 1) = 100000`, which is **above** the floor
`max(10000, 2^1) = 10000` — the claim then requires 100000 shots per
setting, but the code uses 10000: the floor expression overrides the share
rather than lower-bounding it. -/
theorem sampling_mode_shot_counterexample :
    perform_fragment_tomography [("fragment_0", exampleFragment)] PrepBasis.SIC (some 100000) =
        .ok [("fragment_0", TomoMode.sampling 10000)] ∧
      Int.fdiv 100000 (num_variants PrepBasis.SIC [("fragment_0", exampleFragment)]) = 100000 ∧
      (10000 : Int) < 100000 :=
  ⟨rfl, rfl, by decide⟩

/-- C5: the `rank_cutoff` accepted by `build_fragment_models` is forwarded to
`build_single_fragment_model` but silently **dropped** at the call to
`build_conditional_fragment_model` (`build_fragments.py` line 35 passes only
the data and the substring), so the least-squares solver always receives the
default `cond = 1e-8`: here the caller asks for `1/2` and both blocks still
record `cond = 1e-8`.  (`fragment_key` is dropped at the same call site,
leaving the blocks untagged.) -/
theorem rank_cutoff_is_dropped :
    build_fragment_models [("fragment_0", exampleTomographyData)] (1/2) =
      [("fragment_0",
        [([0], { lstsq_cond := defaultRankCutoff, inds := [], tags := none }),
         ([1], { lstsq_cond := defaultRankCutoff, inds := [], tags := none })])] ∧
      defaultRankCutoff ≠ (1/2 : ℚ) := by
  constructor
  · rfl
  · norm_num [defaultRankCutoff]

/-- C5 general form: every block built through `build_fragment_models`
carries the default solver cutoff, whatever `rank_cutoff` the caller
supplied. -/
theorem build_fragment_models_cond_always_default
    (dict : List (String × FragmentTomographyData)) (rc : ℚ) :
    ∀ kb ∈ build_fragment_models dict rc, ∀ sb ∈ kb.2,
      sb.2.lstsq_cond = defaultRankCutoff := by
  intro kb hkb sb hsb
  rcases List.mem_map.mp hkb with ⟨kd, _, rfl⟩
  rcases List.mem_map.mp hsb with ⟨s, _, rfl⟩
  rfl

/-! ## Claim theorems about the circuit cutter -/

theorem cutStep_trivial (s : CutState) (cut : Cut)
    (h : isTrivialCut s cut = true) : cutStep s cut = s := by
  simp only [isTrivialCut, Bool.or_eq_true, Bool.not_eq_true'] at h
  simp only [cutStep]
  rcases h with h | h
  · rw [if_pos h]
  · by_cases h2 : (circuitQubits (s.circuit.take cut.1)).contains
        ((List.lookup cut.2 s.initial_to_final_qubit_map).getD cut.2) = false
    · rw [if_pos h2]
    · rw [if_neg h2, if_pos h]

/-- C7: a trivial cut — one whose resolved qubit has no operations strictly
before the cut moment, or none at or after it — is silently skipped by the
cut loop of `cut_circuit`: wherever it sits in the sorted cut sequence, the
loop state is unchanged at that step (so the cut contributes no
`quantum_inputs`/`quantum_outputs` entry, from which every fragment's
entries are drawn by restriction, and does not advance the cut-name index),
and `cut_circuit` produces the same state as if the cut were absent.  No
error path exists in the loop. -/
theorem trivial_cut_skipped (circuit : Circuit) (cuts pre post : List Cut) (cut : Cut)
    (hsort : sortBy cutLe cuts = pre ++ cut :: post)
    (h : isTrivialCut (processCuts (initCutState circuit) pre) cut = true) :
    cutStep (processCuts (initCutState circuit) pre) cut
        = processCuts (initCutState circuit) pre ∧
    (cutStep (processCuts (initCutState circuit) pre) cut).quantum_inputs
        = (processCuts (initCutState circuit) pre).quantum_inputs ∧
    (cutStep (processCuts (initCutState circuit) pre) cut).quantum_outputs
        = (processCuts (initCutState circuit) pre).quantum_outputs ∧
    (cutStep (processCuts (initCutState circuit) pre) cut).cut_index
        = (processCuts (initCutState circuit) pre).cut_index ∧
    cut_circuit_state circuit cuts = processCuts (initCutState circuit) (pre ++ post) := by
  have hstep := cutStep_trivial _ _ h
  refine ⟨hstep, by rw [hstep], by rw [hstep], by rw [hstep], ?_⟩
  unfold cut_circuit_state
  rw [hsort]
  unfold processCuts
  rw [List.foldl_append, List.foldl_append, List.foldl_cons]
  rw [show List.foldl cutStep (initCutState circuit) pre
    = processCuts (initCutState circuit) pre from rfl, hstep]

/-- Witness for C7: a one-moment circuit acting on qubit 0, cut at moment 0
— there is nothing upstream, so the cut is trivial and the loop state is
untouched. -/
theorem trivial_cut_skipped_witness :
    cutStep (processCuts (initCutState [[[Qubit.line 0]]]) []) (0, Qubit.line 0)
        = processCuts (initCutState [[[Qubit.line 0]]]) [] ∧
    (cutStep (processCuts (initCutState [[[Qubit.line 0]]]) []) (0, Qubit.line 0)).quantum_inputs
        = (processCuts (initCutState [[[Qubit.line 0]]]) []).quantum_inputs ∧
    (cutStep (processCuts (initCutState [[[Qubit.line 0]]]) []) (0, Qubit.line 0)).quantum_outputs
        = (processCuts (initCutState [[[Qubit.line 0]]]) []).quantum_outputs ∧
    (cutStep (processCuts (initCutState [[[Qubit.line 0]]]) []) (0, Qubit.line 0)).cut_index
        = (processCuts (initCutState [[[Qubit.line 0]]]) []).cut_index ∧
    cut_circuit_state [[[Qubit.line 0]]] [(0, Qubit.line 0)]
        = processCuts (initCutState [[[Qubit.line 0]]]) ([] ++ []) :=
  trivial_cut_skipped [[[Qubit.line 0]]] [(0, Qubit.line 0)] [] [] (0, Qubit.line 0)
    (by rfl) (by decide)

/-! ## Supporting lemmas for the outcome combiner -/

theorem option_mapM_cons (f : α → Option β) (a : α) (l : List α) (out : List β)
    (h : (a :: l).mapM f = some out) :
    ∃ b tl, f a = some b ∧ l.mapM f = some tl ∧ out = b :: tl := by
  rw [List.mapM_cons] at h
  cases hfa : f a with
  | none => rw [hfa] at h; simp at h
  | some b =>
    rw [hfa] at h
    cases hml : l.mapM f with
    | none => rw [hml] at h; simp at h
    | some tl =>
      rw [hml] at h
      simp at h
      exact ⟨b, tl, rfl, rfl, by simp [h.symm]⟩

theorem option_mapM_getElem (f : α → Option β) :
    ∀ (l : List α) (out : List β), l.mapM f = some out →
      ∀ i : Nat, out[i]? = (l[i]?).bind f := by
  intro l
  induction l with
  | nil =>
    intro out h i
    simp only [List.mapM_nil, pure, Option.some.injEq] at h
    subst h
    simp
  | cons a t ih =>
    intro out h i
    obtain ⟨b, tl, hfa, hml, rfl⟩ := option_mapM_cons f a t out h
    cases i with
    | zero => simp [hfa]
    | succ n => simp [ih tl hml n]

theorem option_mapM_length (f : α → Option β) :
    ∀ (l : List α) (out : List β), l.mapM f = some out → out.length = l.length := by
  intro l
  induction l with
  | nil =>
    intro out h
    simp only [List.mapM_nil, pure, Option.some.injEq] at h
    subst h
    rfl
  | cons a t ih =>
    intro out h
    obtain ⟨b, tl, _, hml, rfl⟩ := option_mapM_cons f a t out h
    simp [ih tl hml]

theorem i2f_lookup (q2c : List (Qubit × String)) (c2q : List (String × Qubit)) (fuel : Nat) :
    ∀ (l : List Qubit) (i2f : List (Qubit × Qubit)),
      l.mapM (fun q => (chaseQubit q2c c2q fuel q).map (fun r => (q, r))) = some i2f →
      ∀ q ∈ l, List.lookup q i2f = chaseQubit q2c c2q fuel q := by
  intro l
  induction l with
  | nil =>
    intro i2f _ q hq
    simp at hq
  | cons a t ih =>
    intro i2f h q hq
    obtain ⟨b, tl, hfa, hml, rfl⟩ := option_mapM_cons _ a t i2f h
    cases hca : chaseQubit q2c c2q fuel a with
    | none => rw [hca] at hfa; simp at hfa
    | some ra =>
      rw [hca] at hfa
      simp at hfa
      by_cases hqa : q = a
      · subst hqa
        rw [← hfa]
        simp [List.lookup, hca]
      · rw [← hfa]
        have hq2 : q ∈ t := by
          rcases List.mem_cons.mp hq with h1 | h1
          · exact absurd h1 hqa
          · exact h1
        have hbeq : (q == a) = false := beq_false_of_ne hqa
        simp only [List.lookup, hbeq]
        exact ih tl hml q hq2

theorem getElem_indexOf_eq_lookup_zip (q : Qubit) :
    ∀ (as : List Qubit) (bs : List Nat), q ∈ as → bs.length = as.length →
      bs[as.indexOf q]? = List.lookup q (as.zip bs) := by
  intro as
  induction as with
  | nil =>
    intro bs h _
    simp at h
  | cons a at2 ih =>
    intro bs hmem hlen
    match bs, hlen with
    | b :: bt, hlen =>
      by_cases hqa : q = a
      · subst hqa
        simp [List.indexOf_cons, List.lookup, List.zip_cons_cons]
      · have hmem2 : q ∈ at2 := by
          rcases List.mem_cons.mp hmem with h1 | h1
          · exact absurd h1 hqa
          · exact h1
        have hbeq : (a == q) = false := beq_false_of_ne (Ne.symm hqa)
        have hbeq2 : (q == a) = false := beq_false_of_ne hqa
        rw [List.zip_cons_cons]
        have hidx : (a :: at2).indexOf q = at2.indexOf q + 1 := by
          simp [List.indexOf_cons, hbeq]
        rw [hidx]
        simp only [List.getElem?_cons_succ, List.lookup, hbeq2]
        exact ih bt hmem2 (by simpa using hlen)

theorem subs_flatten_length (fragment_substrings : List (String × List Nat)) :
    ∀ (fragments : List (String × Fragment)) (subs : List (List Nat)),
      (fragments.map Prod.fst).mapM (fun k => List.lookup k fragment_substrings)
          = some subs →
      (∀ kf ∈ fragments, ∀ bs, List.lookup kf.1 fragment_substrings = some bs →
        bs.length = kf.2.circuit_outputs.length) →
      subs.flatten.length
        = ((fragments.map (fun kf => kf.2.circuit_outputs)).flatten).length := by
  intro fragments
  induction fragments with
  | nil =>
    intro subs h _
    simp only [List.map_nil, List.mapM_nil, pure, Option.some.injEq] at h
    subst h
    rfl
  | cons kf rest ih =>
    intro subs h hlen
    simp only [List.map_cons] at h
    obtain ⟨b, tl, hfa, hml, rfl⟩ := option_mapM_cons _ _ _ subs h
    have h1 := hlen kf (by simp) b hfa
    have h2 := ih tl hml (fun kg hg => hlen kg (by simp [hg]))
    simp [List.flatten_cons, h1, h2]

/-- C8: permutation correctness of the outcome combiner.  Whenever
`get_outcome_combiner` succeeds (yielding the fragment keys and the bit
permutation captured by the `outcome_combiner` closure) and the closure
succeeds on a per-fragment assignment of circuit-output substrings of the
right lengths, the combined bitstring's bit at position `i` is the bit of
the concatenated fragment substrings (fragment-then-local order) belonging
to the qubit that the `i`-th entry of the requested `qubit_order`
(defaulting to the sorted circuit qubits) is routed to through the chain of
cut renamings — the output follows the requested order, not the internal
concatenation order. -/
theorem outcome_combiner_respects_qubit_order
    (fragments : List (String × Fragment)) (qubit_order : Option (List Qubit))
    (keys : List String) (perm : List Nat)
    (fragment_substrings : List (String × List Nat)) (out : List Nat)
    (hcomb : get_outcome_combiner fragments qubit_order = some (keys, perm))
    (happly : outcome_combiner_apply keys perm fragment_substrings = some out)
    (hlen : ∀ kf ∈ fragments, ∀ bs, List.lookup kf.1 fragment_substrings = some bs →
      bs.length = kf.2.circuit_outputs.length)
    (i : Nat) (q fq : Qubit)
    (hq : (qubit_order.getD (sortBy qubitLe (combinerCircuitQubits fragments)))[i]? = some q)
    (hmem : q ∈ combinerCircuitQubits fragments)
    (hchase : chaseQubit (qubitToCut fragments) (cutToQubit fragments)
      ((qubitToCut fragments).length + 1) q = some fq) :
    out[i]? = specBitForQubit fragments fragment_substrings fq := by
  simp only [get_outcome_combiner] at hcomb
  cases h1 : (combinerCircuitQubits fragments).mapM
      (fun q => (chaseQubit (qubitToCut fragments) (cutToQubit fragments)
        ((qubitToCut fragments).length + 1) q).map (fun r => (q, r))) with
  | none =>
    rw [h1] at hcomb
    simp at hcomb
  | some i2f =>
    rw [h1] at hcomb
    simp only [Option.some_bind] at hcomb
    cases h2 : ((qubit_order.getD (sortBy qubitLe (combinerCircuitQubits fragments))).map
        (fun q => (List.lookup q i2f).getD q)).mapM
        (fun q => if ((fragments.map (fun kf => kf.2.circuit_outputs)).flatten).contains q
          then some (((fragments.map (fun kf => kf.2.circuit_outputs)).flatten).indexOf q)
          else none) with
    | none =>
      rw [h2] at hcomb
      simp at hcomb
    | some bp =>
      rw [h2] at hcomb
      simp at hcomb
      obtain ⟨hkeys, hperm⟩ := hcomb
      subst hperm
      subst hkeys
      simp only [outcome_combiner_apply] at happly
      cases h3 : (fragments.map Prod.fst).mapM
          (fun k => List.lookup k fragment_substrings) with
      | none =>
        rw [h3] at happly
        simp at happly
      | some subs =>
        rw [h3] at happly
        simp only [Option.some_bind] at happly
        -- the i-th final qubit is fq
        have hfinal : ((qubit_order.getD
            (sortBy qubitLe (combinerCircuitQubits fragments))).map
            (fun q => (List.lookup q i2f).getD q))[i]? = some fq := by
          rw [List.getElem?_map, hq]
          simp only [Option.map]
          rw [i2f_lookup _ _ _ _ i2f h1 q hmem, hchase]
          rfl
        -- hence perm[i] is the index of fq in the concatenated output qubits
        have hbp_i := option_mapM_getElem _ _ _ h2 i
        rw [hfinal] at hbp_i
        simp only [Option.some_bind] at hbp_i
        have hout_i := option_mapM_getElem _ _ _ happly i
        by_cases hc : ((fragments.map (fun kf => kf.2.circuit_outputs)).flatten).contains fq
        · rw [if_pos hc] at hbp_i
          rw [hbp_i] at hout_i
          simp only [Option.some_bind] at hout_i
          rw [hout_i]
          have hfqmem : fq ∈ (fragments.map (fun kf => kf.2.circuit_outputs)).flatten := by
            simpa using hc
          have hlens : subs.flatten.length
              = ((fragments.map (fun kf => kf.2.circuit_outputs)).flatten).length :=
            subs_flatten_length fragment_substrings fragments subs h3 hlen
          rw [getElem_indexOf_eq_lookup_zip fq _ _ hfqmem hlens]
          simp only [specBitForQubit, h3, Option.some_bind]
        · rw [if_neg hc] at hbp_i
          -- impossible: position i exists in the final qubit order, so bp[i]? is some
          exfalso
          have hlt : i < ((qubit_order.getD
              (sortBy qubitLe (combinerCircuitQubits fragments))).map
              (fun q => (List.lookup q i2f).getD q)).length := by
            rcases List.getElem?_eq_some.mp hfinal with ⟨hlt, _⟩
            exact hlt
          have hbplen := option_mapM_length _ _ _ h2
          have : bp[i]? = none → bp.length ≤ i := fun hn => by
            by_contra hcon
            push_neg at hcon
            rw [List.getElem?_eq_getElem hcon] at hn
            simp at hn
          have hle := this hbp_i
          rw [hbplen] at hle
          exact absurd hlt (not_lt.mpr hle)

/-- Witness for C8: requested qubit order `[q1, q0, q2]` (non-canonical);
`q1` is routed to `NamedQubit("cut_0")`, whose bit in the concatenated
substrings `[1] ++ [0, 1]` is the last one; the combined outcome `[1, 1, 0]`
carries it at position 0, following the requested order. -/
theorem outcome_combiner_respects_qubit_order_witness :
    ([1, 1, 0] : List Nat)[0]?
      = specBitForQubit witnessFragments witnessSubstrings (Qubit.named "cut_0") :=
  outcome_combiner_respects_qubit_order witnessFragments
    (some [Qubit.line 1, Qubit.line 0, Qubit.line 2])
    ["fragment_0", "fragment_1"] [2, 0, 1] witnessSubstrings [1, 1, 0]
    (by rfl) (by rfl)
    (by
      intro kf hkf bs hbs
      fin_cases hkf <;>
        · simp [witnessSubstrings, List.lookup] at hbs
          subst hbs
          rfl)
    0 (Qubit.line 1) (Qubit.named "cut_0")
    (by rfl) (by decide) (by rfl)
